import Mathlib

/-!
# RustFinal: a mutex-protected counter incremented by concurrent workers

Shallow embedding of `src/rustfinal/main.go`.

* `Server` is the Go struct: the mutex `counter` (a locked bit, as `sync.Mutex`
  has no owner) and the shared `value`. Go `int` is taken as 64-bit two's
  complement (`wrapInt`), its width on 64-bit targets.
* `handleRequest` is cut at its shared-memory actions; each worker goroutine
  carries a program counter (`WorkerPc`) and the register holding the value
  read by `s.value++`, which is a read followed by a write.
* `start` is an interleaving semantics: `step` performs one action of the
  thread picked by the scheduler (`Tid`), `run` follows a whole schedule.
  A step that is blocked (`Lock` on a locked mutex, `Wait` on a non-zero
  WaitGroup) or belongs to a finished thread yields `none`. In the loop of
  `start` the test `i < numRequests` is taken together with `wg.Add(1)`, and
  the `go` statement together with `i++`: the test and `i++` touch only the
  loop variable, which no other thread sees.
* `makeRequest` and `main` are sequential; the outcome of `http.Get` is an
  input (`GetResult`).

`sync.WaitGroup`, `sync.Mutex`, `log` and `net/http` are library code; they
are modelled by their documented contracts: `Lock` blocks while the mutex is
locked, `Unlock` of an unlocked mutex is a fatal error, `Add` and `Done` change
the counter, which must not become negative, `Wait` blocks until it is zero,
and a call of the `log` package appends one whole line. Log lines are modelled
by their message (the timestamp and file:line header set by `log.SetFlags` is
left out).

Interleaving of whole actions is the semantics Go gives to programs without
data races; `mutual_exclusion` shows that `value` is only touched under the
mutex.
-/

namespace RustFinal

/-! ## Machine integers -/

/-- Largest value of a Go `int` (64-bit). -/
def maxInt : Int := 2 ^ 63 - 1

/-- Smallest value of a Go `int` (64-bit). -/
def minInt : Int := -(2 ^ 63)

/-- Two's-complement reduction of an integer into the range of Go `int`. -/
def wrapInt (x : Int) : Int := (x + 2 ^ 63) % 2 ^ 64 - 2 ^ 63

/-- The integer is representable as a Go `int`. -/
def isInt (x : Int) : Prop := minInt ≤ x ∧ x ≤ maxInt

instance (x : Int) : Decidable (isInt x) := by
  unfold isInt; exact inferInstance

/-! ## Log records -/

/-- One call of the `log` package, by call site. -/
inductive LogLine where
  /-- Line of `log.Println("Program started.")` -/
  | programStarted
  /-- Line of `log.Println("Server initialized.")` -/
  | serverInitialized
  /-- Line of `log.Printf("Handled request, counter: %d", s.value)` -/
  | handled (counter : Int)
  /-- Line of `log.Printf("Error making request to %s: %v", url, err)` -/
  | requestError (url : String) (err : String)
  /-- Line of `log.Printf("Request to %s completed with status: %d", url, code)` -/
  | requestCompleted (url : String) (status : Int)
  /-- Line of `log.Printf("Request to %s failed with status: %d", url, code)` -/
  | requestFailed (url : String) (status : Int)
  /-- Line of `log.Fatalf("Request failed: %v", err)` -/
  | fatalRequestFailed (err : String)
  /-- Line of `log.Println("Program finished.")` -/
  | programFinished
  deriving DecidableEq, Repr

/-- The message text of a log record (format strings of the source). -/
def LogLine.message : LogLine → String
  | .programStarted => "Program started."
  | .serverInitialized => "Server initialized."
  | .handled c => "Handled request, counter: " ++ toString c
  | .requestError url err => "Error making request to " ++ url ++ ": " ++ err
  | .requestCompleted url code =>
      "Request to " ++ url ++ " completed with status: " ++ toString code
  | .requestFailed url code =>
      "Request to " ++ url ++ " failed with status: " ++ toString code
  | .fatalRequestFailed err => "Request failed: " ++ err
  | .programFinished => "Program finished."

/-! ## The server -/

/-- The Go struct `Server`: `counter` is the mutex (`true` = locked), `value`
the shared state. -/
structure Server where
  counter : Bool
  value : Int
  deriving DecidableEq, Repr

/-- The constructor `NewServer`: a fresh mutex and value 0. -/
def NewServer : Server := { counter := false, value := 0 }

/-! ## Worker goroutines -/

/-- Program points of the goroutine `func() { defer wg.Done(); s.handleRequest() }`.
Each constructor names the action the goroutine performs next. -/
inductive WorkerPc where
  /-- Next is `time.Sleep(100 * time.Millisecond)` -/
  | sleep
  /-- Next is `s.counter.Lock()` -/
  | lock
  /-- Next is the read of `s.value` in `s.value++` -/
  | load
  /-- Next is the write of the incremented value in `s.value++` -/
  | store
  /-- Next is `log.Printf("Handled request, counter: %d", s.value)` -/
  | print
  /-- Next is the deferred `s.counter.Unlock()` -/
  | unlock
  /-- The call of `handleRequest` has returned; next is the deferred `wg.Done()` -/
  | done
  /-- The goroutine has finished -/
  | exited
  deriving DecidableEq, Repr

/-- A worker goroutine: its program point and the value read by `s.value++`. -/
structure Worker where
  pc : WorkerPc
  tmp : Int
  deriving DecidableEq, Repr

/-- Program points of the goroutine that called `start`. -/
inductive StartPc where
  /-- Loop head with loop variable `i`: test `i < numRequests`, then `wg.Add(1)` -/
  | loop (i : Int)
  /-- The `go` statement of iteration `i`, then `i++` -/
  | spawn (i : Int)
  /-- Next is `wg.Wait()` -/
  | wait
  /-- The call of `start` has returned -/
  | returned
  deriving DecidableEq, Repr

/-- Global state during a call of `start`. `fault` records a runtime failure
(unlock of an unlocked mutex, negative WaitGroup counter). -/
structure State where
  server : Server
  wg : Int
  out : List LogLine
  workers : List Worker
  pc : StartPc
  fault : Bool
  deriving DecidableEq, Repr

/-- Thread identifiers: the caller of `start` and the spawned workers, numbered
in spawn order. -/
inductive Tid where
  | main
  | worker (i : Nat)
  deriving DecidableEq, Repr

/-- State in which `start` is entered on server `s` with the log `out` so far. -/
def startState (s : Server) (out : List LogLine) : State :=
  { server := s, wg := 0, out := out, workers := [], pc := .loop 0, fault := false }

/-- One action of the goroutine running `start(numRequests)`. -/
def stepMain (numRequests : Int) (s : State) : Option State :=
  match s.pc with
  | .loop i =>
      if i < numRequests then some { s with wg := s.wg + 1, pc := .spawn i }
      else some { s with pc := .wait }
  | .spawn i =>
      some { s with workers := s.workers ++ [{ pc := .sleep, tmp := 0 }],
                    pc := .loop (wrapInt (i + 1)) }
  | .wait => if s.wg = 0 then some { s with pc := .returned } else none
  | .returned => none

/-- One action of the call `s.handleRequest()` made by worker `i`, whose program
point and register are `w`; `none` when the call is blocked in `Lock` or has
returned. -/
def handleRequest (s : State) (i : Nat) (w : Worker) : Option State :=
  match w.pc with
  | .sleep => some { s with workers := s.workers.set i { w with pc := .lock } }
  | .lock =>
      if s.server.counter then none
      else some { s with server := { s.server with counter := true },
                         workers := s.workers.set i { w with pc := .load } }
  | .load =>
      some { s with workers := s.workers.set i { pc := .store, tmp := s.server.value } }
  | .store =>
      some { s with server := { s.server with value := wrapInt (w.tmp + 1) },
                    workers := s.workers.set i { w with pc := .print } }
  | .print =>
      some { s with out := s.out ++ [.handled s.server.value],
                    workers := s.workers.set i { w with pc := .unlock } }
  | .unlock =>
      if s.server.counter then
        some { s with server := { s.server with counter := false },
                      workers := s.workers.set i { w with pc := .done } }
      else some { s with fault := true }
  | .done => none
  | .exited => none

/-- One action of worker `i`, the goroutine
`func() { defer wg.Done(); s.handleRequest() }`. -/
def stepWorker (s : State) (i : Nat) : Option State :=
  match s.workers[i]? with
  | none => none
  | some w =>
    match w.pc with
    | .done =>
        if 0 < s.wg then
          some { s with wg := s.wg - 1,
                        workers := s.workers.set i { w with pc := .exited } }
        else some { s with fault := true }
    | .exited => none
    | _ => handleRequest s i w

/-- One scheduler step: thread `t` performs its next action. After a runtime
failure nothing runs any more. -/
def step (numRequests : Int) (s : State) (t : Tid) : Option State :=
  if s.fault then none
  else
    match t with
    | .main => stepMain numRequests s
    | .worker i => stepWorker s i

/-- Follow a schedule; `none` when it asks a thread to move that cannot. -/
def run (numRequests : Int) (s : State) : List Tid → Option State
  | [] => some s
  | t :: ts =>
    match step numRequests s t with
    | none => none
    | some s' => run numRequests s' ts

/-- A state of `start(numRequests)` entered on server `srv`. -/
def Reachable (numRequests : Int) (srv : Server) (out : List LogLine) (s : State) : Prop :=
  ∃ sched, run numRequests (startState srv out) sched = some s

/-- The call `s.start(numRequests)` under schedule `sched`: the state at the
return of `start`, or `none` when `sched` is not a complete run of it. -/
def start (numRequests : Int) (s : Server) (out : List LogLine) (sched : List Tid) :
    Option State :=
  match run numRequests (startState s out) sched with
  | none => none
  | some st => if st.pc = .returned then some st else none

/-- The schedule that runs every worker to completion right after spawning it:
main tests and adds, spawns, then worker `i` takes its seven steps. -/
def seqFrom (i : Nat) : Nat → List Tid
  | 0 => [.main, .main]
  | n + 1 =>
      [.main, .main] ++ List.replicate 7 (.worker i) ++ seqFrom (i + 1) n

/-- The sequential schedule of `start(k)`. -/
def seqSchedule (k : Nat) : List Tid := seqFrom 0 k

/-! ## The HTTP request and `main` -/

/-- Outcome of `http.Get`: a transport error, or a response with its status code. -/
inductive GetResult where
  | failure (err : String)
  | response (statusCode : Int)
  deriving DecidableEq, Repr

/-- The method `makeRequest`: the server and log after the call, and the returned error
(`none` is Go's `nil`). -/
def makeRequest (s : Server) (out : List LogLine) (url : String) (r : GetResult) :
    Server × List LogLine × Option String :=
  match r with
  | .failure err => (s, out ++ [.requestError url err], some err)
  | .response code =>
      if code = 200 then (s, out ++ [.requestCompleted url code], none)
      else (s, out ++ [.requestFailed url code], none)

/-- How the process ends: return from `main`, or `os.Exit(1)` inside `log.Fatalf`. -/
inductive ExitStatus where
  | normal
  | fatal (code : Nat)
  deriving DecidableEq, Repr

/-- The program `main`, for a schedule of the workers and an outcome of the GET:
the final server, the whole log and the exit status. -/
def main (sched : List Tid) (r : GetResult) : Option (Server × List LogLine × ExitStatus) :=
  let out := [LogLine.programStarted]
  let server := NewServer
  let out := out ++ [LogLine.serverInitialized]
  match start 500 server out sched with
  | none => none
  | some st =>
    match makeRequest st.server st.out "https://www.rust-lang.org" r with
    | (server, out, some err) => some (server, out ++ [.fatalRequestFailed err], .fatal 1)
    | (server, out, none) => some (server, out ++ [.programFinished], .normal)

/-! ## Predicates on workers and the invariant of `start` -/

/-- The worker is between its `Lock` and its `Unlock`. -/
def Worker.inCritical (w : Worker) : Bool :=
  match w.pc with
  | .load | .store | .print | .unlock => true
  | _ => false

/-- The next action of the worker reads or writes `s.value`. -/
def Worker.touchesValue (w : Worker) : Bool :=
  match w.pc with
  | .load | .store | .print => true
  | _ => false

/-- The worker has written its increment. -/
def Worker.hasStored (w : Worker) : Bool :=
  match w.pc with
  | .print | .unlock | .done | .exited => true
  | _ => false

/-- The worker has emitted its log line. -/
def Worker.hasPrinted (w : Worker) : Bool :=
  match w.pc with
  | .unlock | .done | .exited => true
  | _ => false

/-- The call of `handleRequest` made by the worker has returned. -/
def Worker.hasReturned (w : Worker) : Bool :=
  match w.pc with
  | .done | .exited => true
  | _ => false

/-- The worker has not yet called `wg.Done()`. -/
def Worker.running (w : Worker) : Bool :=
  match w.pc with
  | .exited => false
  | _ => true

/-- The worker is at the write of `s.value++`. -/
def Worker.atStore (w : Worker) : Bool :=
  match w.pc with
  | .store => true
  | _ => false

/-- The worker is at its `log.Printf`. -/
def Worker.atPrint (w : Worker) : Bool :=
  match w.pc with
  | .print => true
  | _ => false

/-- Relation between the program point of `start` and the number `n` of
workers spawned so far. -/
def pcOk (numRequests : Int) (n : Nat) : StartPc → Prop
  | .loop i => i = n ∧ (n : Int) ≤ max numRequests 0
  | .spawn i => i = n ∧ (n : Int) < numRequests
  | .wait => (n : Int) = max numRequests 0
  | .returned => (n : Int) = max numRequests 0

/-- WaitGroup units added for a goroutine that is not started yet. -/
def pendingAdd : StartPc → Int
  | .spawn _ => 1
  | _ => 0

/-- The log lines of the first `n` increments on a counter that started at `v`. -/
def handledLines (v : Int) (n : Nat) : List LogLine :=
  (List.range n).map (fun (k : Nat) => LogLine.handled (wrapInt (v + (k : Int) + 1)))

/-- Invariant of every state of `start(numRequests)` entered on `srv` with log `out`. -/
structure Inv (numRequests : Int) (srv : Server) (out : List LogLine) (s : State) : Prop where
  noFault : s.fault = false
  pcInv : pcOk numRequests s.workers.length s.pc
  wgInv : s.wg = (s.workers.countP Worker.running : Nat) + pendingAdd s.pc
  csLe : s.workers.countP Worker.inCritical ≤ 1
  csLocked : s.workers.countP Worker.inCritical = 1 → s.server.counter = true
  lockedCs : srv.counter = false → s.server.counter = true →
    s.workers.countP Worker.inCritical = 1
  valInv : s.server.value = wrapInt (srv.value + (s.workers.countP Worker.hasStored : Nat))
  tmpInv : ∀ w ∈ s.workers, w.pc = .store → w.tmp = s.server.value
  printInv : ∀ w ∈ s.workers, w.pc = .print → s.server.value = wrapInt (w.tmp + 1)
  outInv : s.out = out ++ handledLines srv.value (s.workers.countP Worker.hasPrinted)
  retInv : s.pc = .returned → s.wg = 0

/-- Steps a worker still has to take. -/
def WorkerPc.remaining : WorkerPc → Nat
  | .sleep => 7
  | .lock => 6
  | .load => 5
  | .store => 4
  | .print => 3
  | .unlock => 2
  | .done => 1
  | .exited => 0

/-- Steps `start` and the workers it has yet to spawn still have to take. -/
def StartPc.remaining (numRequests : Int) : StartPc → Nat
  | .loop i => 9 * (numRequests - i).toNat + 2
  | .spawn i => 9 * (numRequests - i).toNat + 1
  | .wait => 1
  | .returned => 0

/-- Number of steps left until `start` has returned and every worker finished. -/
def measure (numRequests : Int) (s : State) : Nat :=
  s.pc.remaining numRequests + (s.workers.map (fun w => w.pc.remaining)).sum

/-- The workers after `n` rounds of the sequential schedule on a counter that
started at `v`: all finished, worker `k` having read the value left by `k` increments. -/
def seqWorkers (v : Int) (n : Nat) : List Worker :=
  (List.range n).map (fun (k : Nat) => { pc := .exited, tmp := wrapInt (v + (k : Int)) })

/-- The state after `n` rounds of the sequential schedule, at program point `pc`. -/
def seqState (srv : Server) (out : List LogLine) (n : Nat) (pc : StartPc) : State :=
  { server := { counter := false, value := wrapInt (srv.value + n) },
    wg := 0,
    out := out ++ handledLines srv.value n,
    workers := seqWorkers srv.value n,
    pc := pc,
    fault := false }

/-! ## Arithmetic of `int` -/

theorem wrapInt_of_isInt {x : Int} (h : isInt x) : wrapInt x = x := by
  unfold isInt minInt maxInt at h
  unfold wrapInt
  norm_num at h ⊢
  omega

theorem wrapInt_succ (x : Int) : wrapInt (wrapInt x + 1) = wrapInt (x + 1) := by
  unfold wrapInt
  norm_num
  omega

/-! ## Counting workers -/

theorem countP_set_of_getElem? (p : Worker → Bool) {ws : List Worker} {i : Nat} {w : Worker}
    (h : ws[i]? = some w) (w' : Worker) :
    (ws.set i w').countP p + (if p w then 1 else 0)
      = ws.countP p + (if p w' then 1 else 0) := by
  obtain ⟨hi, hw⟩ := List.getElem?_eq_some_iff.mp h
  have h1 := List.countP_set p ws i w' hi
  have h2 := List.boole_getElem_le_countP p ws i hi
  rw [hw] at h1 h2
  omega

theorem mem_of_getElem? {ws : List Worker} {i : Nat} {w : Worker}
    (h : ws[i]? = some w) : w ∈ ws := by
  obtain ⟨hi, hw⟩ := List.getElem?_eq_some_iff.mp h
  exact hw ▸ List.getElem_mem hi

theorem countP_inCritical_split (ws : List Worker) :
    ws.countP Worker.atStore + ws.countP Worker.atPrint ≤ ws.countP Worker.inCritical := by
  induction ws with
  | nil => simp
  | cons w ws ih =>
    obtain ⟨pc, tmp⟩ := w
    cases pc <;>
      simp [List.countP_cons, Worker.atStore, Worker.atPrint, Worker.inCritical] <;> omega

theorem countP_hasStored_split (ws : List Worker) :
    ws.countP Worker.hasStored = ws.countP Worker.atPrint + ws.countP Worker.hasPrinted := by
  induction ws with
  | nil => simp
  | cons w ws ih =>
    obtain ⟨pc, tmp⟩ := w
    cases pc <;>
      simp [List.countP_cons, Worker.hasStored, Worker.atPrint, Worker.hasPrinted] <;> omega

theorem handledLines_succ (v : Int) (n : Nat) :
    handledLines v (n + 1) = handledLines v n ++ [LogLine.handled (wrapInt (v + n + 1))] := by
  simp [handledLines, List.range_succ]

/-! ## The invariant holds in every state of `start` -/

theorem inv_startState {srv : Server} (numRequests : Int) (out : List LogLine)
    (hv : isInt srv.value) : Inv numRequests srv out (startState srv out) := by
  refine ⟨rfl, ?_, ?_, ?_, ?_, ?_, ?_, ?_, ?_, ?_, fun _ => rfl⟩
  · simp [startState, pcOk]
  · simp [startState, pendingAdd]
  · simp [startState]
  · simp [startState]
  · simp [startState]
  · simp [startState, wrapInt_of_isInt hv]
  · simp [startState]
  · simp [startState]
  · simp [startState, handledLines]

theorem stepMain_inv {numRequests : Int} {srv : Server} {out : List LogLine} {s s' : State}
    (hK : isInt numRequests) (hI : Inv numRequests srv out s)
    (h : stepMain numRequests s = some s') : Inv numRequests srv out s' := by
  obtain ⟨hf, hpc, hwg, hle, hcl, hlc, hval, htmp, hpr, hout, hret⟩ := hI
  unfold stepMain at h
  cases hp : s.pc with
  | loop i =>
    rw [hp] at h hpc hwg
    simp only [pcOk, pendingAdd] at hpc hwg
    by_cases hlt : i < numRequests
    · simp only [hlt, if_true, Option.some.injEq] at h
      subst h
      refine ⟨hf, ?_, ?_, hle, hcl, hlc, hval, htmp, hpr, hout, fun hr => by cases hr⟩
      · simp only [pcOk]; omega
      · simp only [pendingAdd]; omega
    · simp only [hlt, if_false, Option.some.injEq] at h
      subst h
      refine ⟨hf, ?_, ?_, hle, hcl, hlc, hval, htmp, hpr, hout, fun hr => by cases hr⟩
      · simp only [pcOk]; omega
      · simp only [pendingAdd]; omega
  | spawn i =>
    rw [hp] at h hpc hwg
    simp only [pcOk, pendingAdd, Option.some.injEq] at hpc hwg h
    subst h
    have hi : wrapInt (i + 1) = i + 1 := by
      apply wrapInt_of_isInt
      unfold isInt minInt maxInt at hK ⊢
      norm_num at hK ⊢
      omega
    refine ⟨hf, ?_, ?_, ?_, ?_, ?_, ?_, ?_, ?_, ?_, fun hr => by cases hr⟩
    · simp only [pcOk, hi, List.length_append, List.length_singleton]
      push_cast
      omega
    · simp [pendingAdd, Worker.running, hwg]
    · simpa [Worker.inCritical] using hle
    · simpa [Worker.inCritical] using hcl
    · simpa [Worker.inCritical] using hlc
    · simpa [Worker.hasStored] using hval
    · intro w hw hs
      simp only [List.mem_append, List.mem_singleton] at hw
      rcases hw with hw | hw
      · exact htmp w hw hs
      · subst hw; cases hs
    · intro w hw hs
      simp only [List.mem_append, List.mem_singleton] at hw
      rcases hw with hw | hw
      · exact hpr w hw hs
      · subst hw; cases hs
    · simpa [Worker.hasPrinted] using hout
  | wait =>
    rw [hp] at h hpc hwg
    simp only [pcOk, pendingAdd] at hpc hwg
    by_cases hz : s.wg = 0
    · rw [if_pos hz, Option.some.injEq] at h
      subst h
      refine ⟨hf, ?_, ?_, hle, hcl, hlc, hval, htmp, hpr, hout, fun _ => hz⟩
      · simpa only [pcOk] using hpc
      · simpa only [pendingAdd] using hwg
    · simp [hz] at h
  | returned =>
    rw [hp] at h
    simp at h

theorem stepWorker_inv {numRequests : Int} {srv : Server} {out : List LogLine}
    {s s' : State} {i : Nat} (hI : Inv numRequests srv out s)
    (h : stepWorker s i = some s') : Inv numRequests srv out s' := by
  obtain ⟨hf, hpc, hwg, hle, hcl, hlc, hval, htmp, hpr, hout, hret⟩ := hI
  unfold stepWorker handleRequest at h
  cases hw : s.workers[i]? with
  | none => simp [hw] at h
  | some w =>
    rw [hw] at h
    simp only at h
    have hmem := mem_of_getElem? hw
    have cR := countP_set_of_getElem? Worker.running hw
    have cC := countP_set_of_getElem? Worker.inCritical hw
    have cS := countP_set_of_getElem? Worker.hasStored hw
    have cP := countP_set_of_getElem? Worker.hasPrinted hw
    have cA := countP_set_of_getElem? Worker.atStore hw
    have cB := countP_set_of_getElem? Worker.atPrint hw
    have hsplit := countP_inCritical_split s.workers
    have hsp2 := countP_hasStored_split s.workers
    cases hq : w.pc with
    | sleep =>
      rw [hq] at h
      simp only [Option.some.injEq] at h
      subst h
      specialize cR { w with pc := .lock }
      specialize cC { w with pc := .lock }
      specialize cS { w with pc := .lock }
      specialize cP { w with pc := .lock }
      simp [Worker.running, Worker.inCritical, Worker.hasStored, Worker.hasPrinted, hq]
        at cR cC cS cP
      refine ⟨hf, ?_, ?_, ?_, ?_, ?_, ?_, ?_, ?_, ?_, hret⟩
      · simpa only [List.length_set] using hpc
      · simp only [cR]; exact hwg
      · simp only [cC]; exact hle
      · simp only [cC]; exact hcl
      · simp only [cC]; exact hlc
      · simp only [cS]; exact hval
      · intro w0 hw0 hs
        rcases List.mem_or_eq_of_mem_set hw0 with hm | hm
        · exact htmp w0 hm hs
        · subst hm; cases hs
      · intro w0 hw0 hs
        rcases List.mem_or_eq_of_mem_set hw0 with hm | hm
        · exact hpr w0 hm hs
        · subst hm; cases hs
      · simp only [cP]; exact hout
    | lock =>
      rw [hq] at h
      by_cases hc : s.server.counter = true
      · simp [hc] at h
      · rw [if_neg hc, Option.some.injEq] at h
        subst h
        specialize cR { w with pc := .load }
        specialize cC { w with pc := .load }
        specialize cS { w with pc := .load }
        specialize cP { w with pc := .load }
        simp [Worker.running, Worker.inCritical, Worker.hasStored, Worker.hasPrinted, hq]
          at cR cC cS cP
        have hzero : s.workers.countP Worker.inCritical = 0 := by
          have : s.workers.countP Worker.inCritical ≠ 1 := fun h1 => hc (hcl h1)
          omega
        refine ⟨hf, ?_, ?_, ?_, ?_, ?_, ?_, ?_, ?_, ?_, hret⟩
        · simpa only [List.length_set] using hpc
        · simp only [cR]; exact hwg
        · simp only [cC]; omega
        · intro _; rfl
        · intro _ _; simp only [cC]; omega
        · simp only [cS]; exact hval
        · intro w0 hw0 hs
          rcases List.mem_or_eq_of_mem_set hw0 with hm | hm
          · exact htmp w0 hm hs
          · subst hm; cases hs
        · intro w0 hw0 hs
          rcases List.mem_or_eq_of_mem_set hw0 with hm | hm
          · exact hpr w0 hm hs
          · subst hm; cases hs
        · simp only [cP]; exact hout
    | load =>
      rw [hq] at h
      simp only [Option.some.injEq] at h
      subst h
      specialize cR { pc := .store, tmp := s.server.value }
      specialize cC { pc := .store, tmp := s.server.value }
      specialize cS { pc := .store, tmp := s.server.value }
      specialize cP { pc := .store, tmp := s.server.value }
      simp [Worker.running, Worker.inCritical, Worker.hasStored, Worker.hasPrinted, hq]
        at cR cC cS cP
      refine ⟨hf, ?_, ?_, ?_, ?_, ?_, ?_, ?_, ?_, ?_, hret⟩
      · simpa only [List.length_set] using hpc
      · simp only [cR]; exact hwg
      · simp only [cC]; exact hle
      · simp only [cC]; exact hcl
      · simp only [cC]; exact hlc
      · simp only [cS]; exact hval
      · intro w0 hw0 hs
        rcases List.mem_or_eq_of_mem_set hw0 with hm | hm
        · exact htmp w0 hm hs
        · subst hm; rfl
      · intro w0 hw0 hs
        rcases List.mem_or_eq_of_mem_set hw0 with hm | hm
        · exact hpr w0 hm hs
        · subst hm; cases hs
      · simp only [cP]; exact hout
    | store =>
      rw [hq] at h
      simp only [Option.some.injEq] at h
      subst h
      specialize cR { w with pc := .print }
      specialize cC { w with pc := .print }
      specialize cS { w with pc := .print }
      specialize cP { w with pc := .print }
      specialize cA { w with pc := .print }
      specialize cB { w with pc := .print }
      simp [Worker.running, Worker.inCritical, Worker.hasStored, Worker.hasPrinted,
        Worker.atStore, Worker.atPrint, hq] at cR cC cS cP cA cB
      have htw := htmp w hmem hq
      refine ⟨hf, ?_, ?_, ?_, ?_, ?_, ?_, ?_, ?_, ?_, hret⟩
      · simpa only [List.length_set] using hpc
      · simp only [cR]; exact hwg
      · simp only [cC]; exact hle
      · simp only [cC]; exact hcl
      · simp only [cC]; exact hlc
      · show wrapInt (w.tmp + 1) = _
        rw [cS, htw, hval, wrapInt_succ]
        congr 1
        push_cast
        ring
      · intro w0 hw0 hs
        exfalso
        have hz : (s.workers.set i { w with pc := .print }).countP Worker.atStore = 0 := by
          omega
        have := (List.countP_eq_zero.mp hz) w0 hw0
        simp [Worker.atStore, hs] at this
      · intro w0 hw0 hs
        rcases List.mem_or_eq_of_mem_set hw0 with hm | hm
        · exfalso
          have hz : s.workers.countP Worker.atPrint = 0 := by omega
          have := (List.countP_eq_zero.mp hz) w0 hm
          simp [Worker.atPrint, hs] at this
        · subst hm; rfl
      · simp only [cP]; exact hout
    | print =>
      rw [hq] at h
      simp only [Option.some.injEq] at h
      subst h
      specialize cR { w with pc := .unlock }
      specialize cC { w with pc := .unlock }
      specialize cS { w with pc := .unlock }
      specialize cP { w with pc := .unlock }
      specialize cB { w with pc := .unlock }
      simp [Worker.running, Worker.inCritical, Worker.hasStored, Worker.hasPrinted,
        Worker.atPrint, hq] at cR cC cS cP cB
      refine ⟨hf, ?_, ?_, ?_, ?_, ?_, ?_, ?_, ?_, ?_, hret⟩
      · simpa only [List.length_set] using hpc
      · simp only [cR]; exact hwg
      · simp only [cC]; exact hle
      · simp only [cC]; exact hcl
      · simp only [cC]; exact hlc
      · simp only [cS]; exact hval
      · intro w0 hw0 hs
        rcases List.mem_or_eq_of_mem_set hw0 with hm | hm
        · exact htmp w0 hm hs
        · subst hm; cases hs
      · intro w0 hw0 hs
        rcases List.mem_or_eq_of_mem_set hw0 with hm | hm
        · exact hpr w0 hm hs
        · subst hm; cases hs
      · show s.out ++ [LogLine.handled s.server.value] = _
        rw [cP, handledLines_succ, ← List.append_assoc, ← hout, hval]
        have : s.workers.countP Worker.hasStored = s.workers.countP Worker.hasPrinted + 1 := by
          omega
        rw [this]
        push_cast
        simp only [add_assoc]
    | unlock =>
      rw [hq] at h
      dsimp only at h
      specialize cR { w with pc := .done }
      specialize cC { w with pc := .done }
      specialize cS { w with pc := .done }
      specialize cP { w with pc := .done }
      simp [Worker.running, Worker.inCritical, Worker.hasStored, Worker.hasPrinted, hq]
        at cR cC cS cP
      have hone : s.workers.countP Worker.inCritical = 1 := by omega
      have hc := hcl hone
      rw [if_pos hc, Option.some.injEq] at h
      subst h
      refine ⟨hf, ?_, ?_, ?_, ?_, ?_, ?_, ?_, ?_, ?_, hret⟩
      · simpa only [List.length_set] using hpc
      · simp only [cR]; exact hwg
      · dsimp only
        omega
      · intro h1
        exfalso
        dsimp only at h1
        omega
      · intro _ h1; cases h1
      · simp only [cS]; exact hval
      · intro w0 hw0 hs
        rcases List.mem_or_eq_of_mem_set hw0 with hm | hm
        · exact htmp w0 hm hs
        · subst hm; cases hs
      · intro w0 hw0 hs
        rcases List.mem_or_eq_of_mem_set hw0 with hm | hm
        · exact hpr w0 hm hs
        · subst hm; cases hs
      · simp only [cP]; exact hout
    | done =>
      rw [hq] at h
      dsimp only at h
      specialize cR { w with pc := .exited }
      specialize cC { w with pc := .exited }
      specialize cS { w with pc := .exited }
      specialize cP { w with pc := .exited }
      simp [Worker.running, Worker.inCritical, Worker.hasStored, Worker.hasPrinted, hq]
        at cR cC cS cP
      have hpos : 0 < s.wg := by
        have : 0 ≤ pendingAdd s.pc := by cases s.pc <;> simp [pendingAdd]
        omega
      rw [if_pos hpos, Option.some.injEq] at h
      subst h
      refine ⟨hf, ?_, ?_, ?_, ?_, ?_, ?_, ?_, ?_, ?_, ?_⟩
      · simpa only [List.length_set] using hpc
      · show s.wg - 1 = _
        rw [hwg, ← cR]
        push_cast
        ring
      · simp only [cC]; exact hle
      · simp only [cC]; exact hcl
      · simp only [cC]; exact hlc
      · simp only [cS]; exact hval
      · intro w0 hw0 hs
        rcases List.mem_or_eq_of_mem_set hw0 with hm | hm
        · exact htmp w0 hm hs
        · subst hm; cases hs
      · intro w0 hw0 hs
        rcases List.mem_or_eq_of_mem_set hw0 with hm | hm
        · exact hpr w0 hm hs
        · subst hm; cases hs
      · simp only [cP]; exact hout
      · intro hr
        have := hret hr
        omega
    | exited =>
      rw [hq] at h
      simp at h

theorem step_inv {numRequests : Int} {srv : Server} {out : List LogLine} {s s' : State}
    {t : Tid} (hK : isInt numRequests) (hI : Inv numRequests srv out s)
    (h : step numRequests s t = some s') : Inv numRequests srv out s' := by
  unfold step at h
  rw [hI.noFault] at h
  cases t with
  | main => exact stepMain_inv hK hI h
  | worker i => exact stepWorker_inv hI h

theorem run_inv {numRequests : Int} {srv : Server} {out : List LogLine}
    (hK : isInt numRequests) (sched : List Tid) :
    ∀ {s s' : State}, Inv numRequests srv out s → run numRequests s sched = some s' →
      Inv numRequests srv out s' := by
  induction sched with
  | nil =>
    intro s s' hI h
    simp only [run, Option.some.injEq] at h
    exact h ▸ hI
  | cons t ts ih =>
    intro s s' hI h
    unfold run at h
    cases hs : step numRequests s t with
    | none => simp [hs] at h
    | some s1 =>
      rw [hs] at h
      exact ih (step_inv hK hI hs) h

theorem reachable_inv {numRequests : Int} {srv : Server} {out : List LogLine} {s : State}
    (hK : isInt numRequests) (hv : isInt srv.value)
    (h : Reachable numRequests srv out s) : Inv numRequests srv out s := by
  obtain ⟨sched, hs⟩ := h
  exact run_inv hK sched (inv_startState numRequests out hv) hs

theorem run_append (numRequests : Int) (a b : List Tid) :
    ∀ s : State, run numRequests s (a ++ b)
      = (run numRequests s a).bind (fun s' => run numRequests s' b) := by
  induction a with
  | nil => intro s; simp [run]
  | cons t ts ih =>
    intro s
    simp only [List.cons_append, run]
    cases step numRequests s t with
    | none => simp
    | some s1 => simpa using ih s1

/-! ## Every step brings `start` one step nearer to its return -/

theorem sum_remaining_set {ws : List Worker} {i : Nat} {w : Worker}
    (h : ws[i]? = some w) (w' : Worker) :
    ((ws.set i w').map (fun w => w.pc.remaining)).sum + w.pc.remaining
      = (ws.map (fun w => w.pc.remaining)).sum + w'.pc.remaining := by
  induction ws generalizing i with
  | nil => simp at h
  | cons x xs ih =>
    cases i with
    | zero =>
      simp only [List.getElem?_cons_zero, Option.some.injEq] at h
      subst h
      simp only [List.set_cons_zero, List.map_cons, List.sum_cons]
      omega
    | succ j =>
      simp only [List.getElem?_cons_succ] at h
      have := ih h
      simp only [List.set_cons_succ, List.map_cons, List.sum_cons]
      omega

theorem measure_step {numRequests : Int} {srv : Server} {out : List LogLine} {s s' : State}
    {t : Tid} (hK : isInt numRequests) (hI : Inv numRequests srv out s)
    (h : step numRequests s t = some s') :
    measure numRequests s' + 1 = measure numRequests s := by
  have hI' := step_inv hK hI h
  unfold step at h
  rw [hI.noFault] at h
  cases t with
  | main =>
    simp only [Bool.false_eq_true, if_false] at h
    unfold stepMain at h
    have hpc := hI.pcInv
    cases hp : s.pc with
    | loop i =>
      rw [hp] at h hpc
      dsimp only at h
      simp only [pcOk] at hpc
      by_cases hlt : i < numRequests
      · rw [if_pos hlt, Option.some.injEq] at h
        subst h
        simp only [measure, hp, StartPc.remaining]
        omega
      · rw [if_neg hlt, Option.some.injEq] at h
        subst h
        simp only [measure, hp, StartPc.remaining]
        have : (numRequests - i).toNat = 0 := by omega
        omega
    | spawn i =>
      rw [hp] at h hpc
      simp only [pcOk, Option.some.injEq] at hpc h
      subst h
      have hi : wrapInt (i + 1) = i + 1 := by
        apply wrapInt_of_isInt
        unfold isInt minInt maxInt at hK ⊢
        norm_num at hK ⊢
        omega
      simp only [measure, hp, StartPc.remaining, hi, List.map_append, List.sum_append,
        List.map_cons, List.map_nil, List.sum_cons, List.sum_nil, WorkerPc.remaining]
      have : (numRequests - i).toNat = (numRequests - (i + 1)).toNat + 1 := by omega
      omega
    | wait =>
      rw [hp] at h
      dsimp only at h
      by_cases hz : s.wg = 0
      · rw [if_pos hz, Option.some.injEq] at h
        subst h
        simp only [measure, hp, StartPc.remaining]
        omega
      · simp [hz] at h
    | returned =>
      rw [hp] at h
      simp at h
  | worker i =>
    simp only [Bool.false_eq_true, if_false] at h
    have hf' := hI'.noFault
    unfold stepWorker handleRequest at h
    cases hw : s.workers[i]? with
    | none => simp [hw] at h
    | some w =>
      rw [hw] at h
      dsimp only at h
      have hsum := sum_remaining_set hw
      cases hq : w.pc <;> rw [hq] at h <;> dsimp only at h
      · simp only [Option.some.injEq] at h
        subst h
        have := hsum { w with pc := .lock }
        simp only [measure, hq, WorkerPc.remaining] at this ⊢
        omega
      · by_cases hc : s.server.counter = true
        · simp [hc] at h
        · rw [if_neg hc, Option.some.injEq] at h
          subst h
          have := hsum { w with pc := .load }
          simp only [measure, hq, WorkerPc.remaining] at this ⊢
          omega
      · simp only [Option.some.injEq] at h
        subst h
        have := hsum { pc := .store, tmp := s.server.value }
        simp only [measure, hq, WorkerPc.remaining] at this ⊢
        omega
      · simp only [Option.some.injEq] at h
        subst h
        have := hsum { w with pc := .print }
        simp only [measure, hq, WorkerPc.remaining] at this ⊢
        omega
      · simp only [Option.some.injEq] at h
        subst h
        have := hsum { w with pc := .unlock }
        simp only [measure, hq, WorkerPc.remaining] at this ⊢
        omega
      · by_cases hc : s.server.counter = true
        · rw [if_pos hc, Option.some.injEq] at h
          subst h
          have := hsum { w with pc := .done }
          simp only [measure, hq, WorkerPc.remaining] at this ⊢
          omega
        · rw [if_neg hc, Option.some.injEq] at h
          subst h
          simp at hf'
      · by_cases hc : 0 < s.wg
        · rw [if_pos hc, Option.some.injEq] at h
          subst h
          have := hsum { w with pc := .exited }
          simp only [measure, hq, WorkerPc.remaining] at this ⊢
          omega
        · rw [if_neg hc, Option.some.injEq] at h
          subst h
          simp at hf'
      · simp at h

theorem measure_run {numRequests : Int} {srv : Server} {out : List LogLine}
    (hK : isInt numRequests) (sched : List Tid) :
    ∀ {s s' : State}, Inv numRequests srv out s → run numRequests s sched = some s' →
      measure numRequests s' + sched.length = measure numRequests s := by
  induction sched with
  | nil =>
    intro s s' _ h
    simp only [run, Option.some.injEq] at h
    simp [h]
  | cons t ts ih =>
    intro s s' hI h
    unfold run at h
    cases hs : step numRequests s t with
    | none => simp [hs] at h
    | some s1 =>
      rw [hs] at h
      have h1 := measure_step hK hI hs
      have h2 := ih (step_inv hK hI hs) h
      simp only [List.length_cons]
      omega

/-! ## No deadlock, and `start` returns -/

theorem stepWorker_enabled {s : State} {i : Nat} {w : Worker} (hw : s.workers[i]? = some w)
    (hx : w.pc ≠ .exited) (hl : w.pc = .lock → s.server.counter = false) :
    ∃ s', stepWorker s i = some s' := by
  unfold stepWorker handleRequest
  rw [hw]
  dsimp only
  cases hq : w.pc with
  | lock =>
    dsimp only
    rw [if_neg (by simp [hl hq])]
    exact ⟨_, rfl⟩
  | unlock =>
    dsimp only
    by_cases hc : s.server.counter = true
    · rw [if_pos hc]; exact ⟨_, rfl⟩
    · rw [if_neg hc]; exact ⟨_, rfl⟩
  | done =>
    dsimp only
    by_cases hc : 0 < s.wg
    · rw [if_pos hc]; exact ⟨_, rfl⟩
    · rw [if_neg hc]; exact ⟨_, rfl⟩
  | exited => exact absurd hq hx
  | _ => exact ⟨_, rfl⟩

theorem progress {numRequests : Int} {srv : Server} {out : List LogLine} {s : State}
    (hI : Inv numRequests srv out s) (hm : srv.counter = false) (hp : s.pc ≠ .returned) :
    ∃ t s', step numRequests s t = some s' := by
  have hmain : (∃ s', stepMain numRequests s = some s') →
      ∃ t s', step numRequests s t = some s' := by
    rintro ⟨s', h⟩
    refine ⟨.main, s', ?_⟩
    simp [step, hI.noFault, h]
  have hwork : ∀ i, (∃ s', stepWorker s i = some s') →
      ∃ t s', step numRequests s t = some s' := by
    rintro i ⟨s', h⟩
    refine ⟨.worker i, s', ?_⟩
    simp [step, hI.noFault, h]
  cases hq : s.pc with
  | loop i =>
    by_cases hlt : i < numRequests
    · exact hmain (by simp [stepMain, hq, hlt])
    · exact hmain (by simp [stepMain, hq, hlt])
  | spawn i => exact hmain (by simp [stepMain, hq])
  | returned => exact absurd hq hp
  | wait =>
    by_cases hz : s.wg = 0
    · exact hmain (by simp [stepMain, hq, hz])
    · have hwg := hI.wgInv
      rw [hq] at hwg
      simp only [pendingAdd, add_zero] at hwg
      by_cases hc : s.server.counter = true
      · have hone := hI.lockedCs hm hc
        have hpos : 0 < s.workers.countP Worker.inCritical := by omega
        obtain ⟨w, hwm, hwc⟩ := List.countP_pos_iff.mp hpos
        obtain ⟨i, hi⟩ := List.getElem?_of_mem hwm
        apply hwork i
        apply stepWorker_enabled hi
        · intro hx; simp [Worker.inCritical, hx] at hwc
        · intro hx; simp [Worker.inCritical, hx] at hwc
      · have hpos : 0 < s.workers.countP Worker.running := by omega
        obtain ⟨w, hwm, hwc⟩ := List.countP_pos_iff.mp hpos
        obtain ⟨i, hi⟩ := List.getElem?_of_mem hwm
        apply hwork i
        apply stepWorker_enabled hi
        · intro hx; simp [Worker.running, hx] at hwc
        · intro _; simpa using hc

theorem exists_return {numRequests : Int} {srv : Server} {out : List LogLine}
    (hK : isInt numRequests) (hm : srv.counter = false) :
    ∀ (n : Nat) (s : State), measure numRequests s = n → Inv numRequests srv out s →
      ∃ sched s', run numRequests s sched = some s' ∧ s'.pc = .returned := by
  intro n
  induction n with
  | zero =>
    intro s hn hI
    by_cases hp : s.pc = .returned
    · exact ⟨[], s, rfl, hp⟩
    · obtain ⟨t, s', hs⟩ := progress hI hm hp
      have := measure_step hK hI hs
      omega
  | succ n ih =>
    intro s hn hI
    by_cases hp : s.pc = .returned
    · exact ⟨[], s, rfl, hp⟩
    · obtain ⟨t, s', hs⟩ := progress hI hm hp
      have hms := measure_step hK hI hs
      obtain ⟨sched, s2, hr, hp2⟩ := ih s' (by omega) (step_inv hK hI hs)
      refine ⟨t :: sched, s2, ?_, hp2⟩
      simp [run, hs, hr]

/-- At the return of `start` every worker has finished. -/
theorem returned_all_exited {numRequests : Int} {srv : Server} {out : List LogLine}
    {s : State} (hI : Inv numRequests srv out s) (hp : s.pc = .returned) :
    ∀ w ∈ s.workers, w.pc = .exited := by
  have hwg := hI.wgInv
  rw [hI.retInv hp, hp] at hwg
  simp only [pendingAdd, add_zero] at hwg
  have hz : s.workers.countP Worker.running = 0 := by omega
  intro w hw
  have := (List.countP_eq_zero.mp hz) w hw
  cases hq : w.pc <;> simp [Worker.running, hq] at this
  rfl

theorem countP_eq_length_of_exited (p : Worker → Bool) (hp : ∀ tmp, p ⟨.exited, tmp⟩ = true)
    {ws : List Worker} (h : ∀ w ∈ ws, w.pc = .exited) : ws.countP p = ws.length := by
  apply List.countP_eq_length.mpr
  intro w hw
  obtain ⟨pc, tmp⟩ := w
  have := h _ hw
  simp only at this
  subst this
  exact hp tmp

/-! ## The sequential schedule -/

theorem seqWorkers_length (v : Int) (n : Nat) : (seqWorkers v n).length = n := by
  unfold seqWorkers
  rw [List.length_map, List.length_range]

theorem seqWorkers_succ (v : Int) (n : Nat) :
    seqWorkers v (n + 1) = seqWorkers v n ++ [{ pc := .exited, tmp := wrapInt (v + n) }] := by
  simp [seqWorkers, List.range_succ]

theorem getElem?_snoc (ws : List Worker) (w : Worker) {n : Nat} (hn : ws.length = n) :
    (ws ++ [w])[n]? = some w := by
  subst hn
  simp

theorem set_snoc (ws : List Worker) (w w' : Worker) {n : Nat} (hn : ws.length = n) :
    (ws ++ [w]).set n w' = ws ++ [w'] := by
  subst hn
  simp

theorem run_seq_round {numRequests : Int} (hK : isInt numRequests) (srv : Server)
    (out : List LogLine) (n : Nat) (hn : (n : Int) < numRequests) :
    run numRequests (seqState srv out n (.loop n))
        ([.main, .main] ++ List.replicate 7 (.worker n))
      = some (seqState srv out (n + 1) (.loop ((n + 1 : Nat) : Int))) := by
  have hi : wrapInt ((n : Int) + 1) = (n : Int) + 1 := by
    apply wrapInt_of_isInt
    unfold isInt minInt maxInt at hK ⊢
    norm_num at hK ⊢
    omega
  have hl := seqWorkers_length srv.value n
  simp [run, step, stepMain, stepWorker, handleRequest, seqState, hn, hi, List.replicate,
    getElem?_snoc _ _ hl, set_snoc _ _ _ hl, seqWorkers_succ, handledLines_succ,
    wrapInt_succ, add_assoc]

theorem run_seqFrom {numRequests : Int} (hK : isInt numRequests) (srv : Server)
    (out : List LogLine) :
    ∀ (m n : Nat), ((n + m : Nat) : Int) = max numRequests 0 →
      run numRequests (seqState srv out n (.loop n)) (seqFrom n m)
        = some (seqState srv out (n + m) .returned) := by
  intro m
  induction m with
  | zero =>
    intro n hn
    have hlt : ¬ ((n : Int) < numRequests) := by
      simp only [Nat.add_zero] at hn
      omega
    simp [seqFrom, run, step, stepMain, seqState, hlt]
  | succ m ih =>
    intro n hn
    have hlt : (n : Int) < numRequests := by
      push_cast at hn
      omega
    have hround := run_seq_round hK srv out n hlt
    have hrest := ih (n + 1) (by rw [← hn]; congr 1; omega)
    unfold seqFrom
    rw [run_append, hround]
    simp only [Option.bind_eq_bind, Option.some_bind]
    rw [hrest]
    congr 2
    omega

theorem start_seqSchedule {numRequests : Int} (hK : isInt numRequests) {srv : Server}
    (hv : isInt srv.value) (hm : srv.counter = false) (out : List LogLine) :
    start numRequests srv out (seqSchedule numRequests.toNat)
      = some (seqState srv out numRequests.toNat .returned) := by
  have h0 : startState srv out = seqState srv out 0 (.loop ((0 : Nat) : Int)) := by
    obtain ⟨c, v⟩ := srv
    simp only at hv hm
    subst hm
    simp [startState, seqState, seqWorkers, handledLines, wrapInt_of_isInt hv]
  have hrun := run_seqFrom hK srv out numRequests.toNat 0 (by
    simp only [Nat.zero_add]
    omega)
  unfold start seqSchedule
  rw [h0, hrun]
  simp [seqState]

/-! ## Consequences of the invariant -/

theorem inv_length_le {numRequests : Int} {srv : Server} {out : List LogLine} {s : State}
    (hI : Inv numRequests srv out s) : (s.workers.length : Int) ≤ max numRequests 0 := by
  have h := hI.pcInv
  cases hp : s.pc <;> rw [hp] at h <;> simp only [pcOk] at h <;> omega

theorem start_some_iff {numRequests : Int} {srv : Server} {out : List LogLine}
    {sched : List Tid} {st : State} :
    start numRequests srv out sched = some st ↔
      run numRequests (startState srv out) sched = some st ∧ st.pc = .returned := by
  unfold start
  cases h : run numRequests (startState srv out) sched with
  | none => simp
  | some s1 =>
    by_cases hp : s1.pc = .returned
    · simp only [hp, if_true, Option.some.injEq]
      constructor
      · intro e; subst e; exact ⟨rfl, hp⟩
      · intro e; exact e.1
    · simp only [hp, if_false, Option.some.injEq]
      constructor
      · intro e; cases e
      · rintro ⟨e, hp2⟩; subst e; exact absurd hp2 hp

/-- At the return of `start`, every worker has stored and printed, and there are
`numRequests` of them. -/
theorem returned_counts {numRequests : Int} {srv : Server} {out : List LogLine} {s : State}
    (hI : Inv numRequests srv out s) (hp : s.pc = .returned) :
    s.workers.countP Worker.hasStored = numRequests.toNat ∧
    s.workers.countP Worker.hasPrinted = numRequests.toNat ∧
    s.workers.length = numRequests.toNat := by
  have hall := returned_all_exited hI hp
  have hlen : s.workers.length = numRequests.toNat := by
    have h := hI.pcInv
    rw [hp] at h
    simp only [pcOk] at h
    omega
  refine ⟨?_, ?_, hlen⟩
  · rw [countP_eq_length_of_exited Worker.hasStored (fun _ => rfl) hall, hlen]
  · rw [countP_eq_length_of_exited Worker.hasPrinted (fun _ => rfl) hall, hlen]

theorem handledLines_zero_eq (n : Nat) (hn : (n : Int) ≤ maxInt) :
    handledLines 0 n = (List.range n).map (fun (k : Nat) => LogLine.handled ((k : Int) + 1)) := by
  unfold handledLines
  apply List.map_congr_left
  intro k hk
  have hk' := List.mem_range.mp hk
  have hw : wrapInt (0 + (k : Int) + 1) = (k : Int) + 1 := by
    rw [zero_add]
    apply wrapInt_of_isInt
    unfold isInt minInt
    unfold maxInt at hn ⊢
    norm_num at hn ⊢
    omega
  simp only [hw]

theorem countP_lt_length (p : Worker → Bool) {ws : List Worker} {w : Worker}
    (hw : w ∈ ws) (hp : p w = false) : ws.countP p < ws.length := by
  have hle : ws.countP p ≤ ws.length := List.countP_le_length p
  rcases Nat.lt_or_ge (ws.countP p) ws.length with h | h
  · exact h
  · have heq : ws.countP p = ws.length := by omega
    have := (List.countP_eq_length.mp heq) w hw
    simp [hp] at this

theorem fresh_value {numRequests : Int} {out : List LogLine} {s : State}
    (hK : isInt numRequests) (hI : Inv numRequests NewServer out s) :
    s.server.value = (s.workers.countP Worker.hasStored : Nat) := by
  have hlen := inv_length_le hI
  have hc : s.workers.countP Worker.hasStored ≤ s.workers.length :=
    List.countP_le_length Worker.hasStored
  rw [hI.valInv]
  simp only [NewServer, zero_add]
  apply wrapInt_of_isInt
  unfold isInt minInt maxInt at hK ⊢
  norm_num at hK ⊢
  omega

theorem fresh_out {numRequests : Int} {out : List LogLine} {s : State}
    (hK : isInt numRequests) (hI : Inv numRequests NewServer out s) :
    s.out = out ++ (List.range (s.workers.countP Worker.hasPrinted)).map
      (fun (k : Nat) => LogLine.handled ((k : Int) + 1)) := by
  have hlen := inv_length_le hI
  have hc : s.workers.countP Worker.hasPrinted ≤ s.workers.length :=
    List.countP_le_length Worker.hasPrinted
  rw [hI.outInv]
  simp only [NewServer]
  rw [handledLines_zero_eq]
  unfold isInt minInt maxInt at hK
  unfold maxInt
  norm_num at hK ⊢
  omega

theorem stepMain_frame {numRequests : Int} {s s' : State}
    (h : stepMain numRequests s = some s') :
    s'.server = s.server ∧ s'.out = s.out := by
  unfold stepMain at h
  cases hp : s.pc with
  | loop i =>
    rw [hp] at h
    dsimp only at h
    by_cases hlt : i < numRequests
    · rw [if_pos hlt, Option.some.injEq] at h; subst h; exact ⟨rfl, rfl⟩
    · rw [if_neg hlt, Option.some.injEq] at h; subst h; exact ⟨rfl, rfl⟩
  | spawn i =>
    rw [hp] at h
    simp only [Option.some.injEq] at h
    subst h; exact ⟨rfl, rfl⟩
  | wait =>
    rw [hp] at h
    dsimp only at h
    by_cases hz : s.wg = 0
    · rw [if_pos hz, Option.some.injEq] at h; subst h; exact ⟨rfl, rfl⟩
    · simp [hz] at h
  | returned =>
    rw [hp] at h
    simp at h

theorem stepWorker_effect {s s' : State} {i : Nat} {w : Worker}
    (hw : s.workers[i]? = some w) (h : stepWorker s i = some s') :
    s'.server.value = (if w.pc = .store then wrapInt (w.tmp + 1) else s.server.value) ∧
    s'.out = (if w.pc = .print then s.out ++ [LogLine.handled s.server.value] else s.out) ∧
    s'.server.counter =
      (if w.pc = .lock then true
       else if w.pc = .unlock then false
       else s.server.counter) := by
  unfold stepWorker handleRequest at h
  rw [hw] at h
  dsimp only at h
  cases hq : w.pc <;> rw [hq] at h <;> dsimp only at h
  · simp only [Option.some.injEq] at h; subst h; simp
  · by_cases hc : s.server.counter = true
    · simp [hc] at h
    · rw [if_neg hc, Option.some.injEq] at h; subst h; simp
  · simp only [Option.some.injEq] at h; subst h; simp
  · simp only [Option.some.injEq] at h; subst h; simp
  · simp only [Option.some.injEq] at h; subst h; simp
  · by_cases hc : s.server.counter = true
    · rw [if_pos hc, Option.some.injEq] at h; subst h; simp
    · rw [if_neg hc, Option.some.injEq] at h; subst h; simpa using hc
  · by_cases hc : 0 < s.wg
    · rw [if_pos hc, Option.some.injEq] at h; subst h; simp
    · rw [if_neg hc, Option.some.injEq] at h; subst h; simp
  · simp at h

theorem step_main_eq {numRequests : Int} {s s' : State}
    (h : step numRequests s .main = some s') : stepMain numRequests s = some s' := by
  unfold step at h
  by_cases hf : s.fault = true
  · simp [hf] at h
  · simpa [hf] using h

theorem step_worker_eq {numRequests : Int} {s s' : State} {i : Nat}
    (h : step numRequests s (.worker i) = some s') : stepWorker s i = some s' := by
  unfold step at h
  by_cases hf : s.fault = true
  · simp [hf] at h
  · simpa [hf] using h

theorem countP_running_zero_iff (ws : List Worker) :
    ws.countP Worker.running = 0 ↔ ∀ w ∈ ws, w.pc = .exited := by
  rw [List.countP_eq_zero]
  constructor
  · intro h w hw
    have := h w hw
    cases hq : w.pc <;> simp [Worker.running, hq] at this
    rfl
  · intro h w hw
    simp [Worker.running, h w hw]

theorem step_zero_cases {srv : Server} {out : List LogLine} {s s' : State} {t : Tid}
    (hs : s.server = srv ∧ s.wg = 0 ∧ s.out = out ∧ s.workers = [] ∧ s.fault = false ∧
      (s.pc = .loop 0 ∨ s.pc = .wait ∨ s.pc = .returned))
    (h : step 0 s t = some s') :
    t = .main ∧ s'.server = srv ∧ s'.wg = 0 ∧ s'.out = out ∧ s'.workers = [] ∧
      s'.fault = false ∧
      ((s.pc = .loop 0 ∧ s'.pc = .wait) ∨ (s.pc = .wait ∧ s'.pc = .returned)) := by
  obtain ⟨h1, h2, h3, h4, h5, h6⟩ := hs
  unfold step at h
  rw [h5] at h
  cases t with
  | worker i =>
    simp [stepWorker, h4] at h
  | main =>
    simp only [Bool.false_eq_true, if_false] at h
    unfold stepMain at h
    rcases h6 with h6 | h6 | h6
    · rw [h6] at h
      simp only [lt_self_iff_false, if_false, Option.some.injEq] at h
      subst h
      exact ⟨rfl, h1, h2, h3, h4, h5, Or.inl ⟨h6, rfl⟩⟩
    · rw [h6] at h
      simp only [h2, if_true, Option.some.injEq] at h
      subst h
      exact ⟨rfl, h1, rfl, h3, h4, h5, Or.inr ⟨h6, rfl⟩⟩
    · rw [h6] at h
      simp at h

theorem run_zero_cases {srv : Server} {out : List LogLine} (sched : List Tid) :
    ∀ {s s' : State},
      (s.server = srv ∧ s.wg = 0 ∧ s.out = out ∧ s.workers = [] ∧ s.fault = false ∧
        (s.pc = .loop 0 ∨ s.pc = .wait ∨ s.pc = .returned)) →
      run 0 s sched = some s' →
      (s'.server = srv ∧ s'.wg = 0 ∧ s'.out = out ∧ s'.workers = [] ∧ s'.fault = false ∧
        (s'.pc = .loop 0 ∨ s'.pc = .wait ∨ s'.pc = .returned)) ∧
      (s.pc = .loop 0 → s'.pc = .returned → sched = [.main, .main]) ∧
      (s.pc = .wait → s'.pc = .returned → sched = [.main]) ∧
      (s.pc = .returned → sched = []) := by
  induction sched with
  | nil =>
    intro s s' hs h
    simp only [run, Option.some.injEq] at h
    subst h
    refine ⟨hs, ?_, ?_, fun _ => rfl⟩
    · intro h1 h2; rw [h1] at h2; cases h2
    · intro h1 h2; rw [h1] at h2; cases h2
  | cons t ts ih =>
    intro s s' hs h
    unfold run at h
    cases hst : step 0 s t with
    | none => simp [hst] at h
    | some s1 =>
      rw [hst] at h
      dsimp only at h
      obtain ⟨ht, h1, h2, h3, h4, h5, h6⟩ := step_zero_cases hs hst
      have hs1 : s1.server = srv ∧ s1.wg = 0 ∧ s1.out = out ∧ s1.workers = [] ∧
          s1.fault = false ∧ (s1.pc = .loop 0 ∨ s1.pc = .wait ∨ s1.pc = .returned) := by
        refine ⟨h1, h2, h3, h4, h5, ?_⟩
        rcases h6 with h6 | h6
        · exact Or.inr (Or.inl h6.2)
        · exact Or.inr (Or.inr h6.2)
      obtain ⟨r1, r2, r3, r4⟩ := ih hs1 h
      subst ht
      refine ⟨r1, ?_, ?_, ?_⟩
      · intro hp hp'
        rcases h6 with h6 | h6
        · rw [r3 h6.2 hp']
        · rw [hp] at h6; cases h6.1
      · intro hp hp'
        rcases h6 with h6 | h6
        · rw [hp] at h6; cases h6.1
        · rw [r4 h6.2]
      · intro hp
        rcases h6 with h6 | h6
        · rw [hp] at h6; cases h6.1
        · rw [hp] at h6; cases h6.1

theorem countP_le_one_unique (p : Worker → Bool) :
    ∀ (ws : List Worker) (i j : Nat) (wi wj : Worker), ws.countP p ≤ 1 →
      ws[i]? = some wi → ws[j]? = some wj → p wi = true → p wj = true → i = j := by
  intro ws
  induction ws with
  | nil => intro i j wi wj _ hi; simp at hi
  | cons x xs ih =>
    intro i j wi wj hle hi hj hpi hpj
    rw [List.countP_cons] at hle
    cases i with
    | zero =>
      cases j with
      | zero => rfl
      | succ j =>
        exfalso
        simp only [List.getElem?_cons_zero, Option.some.injEq] at hi
        simp only [List.getElem?_cons_succ] at hj
        subst hi
        have hz : xs.countP p = 0 := by rw [if_pos hpi] at hle; omega
        have := (List.countP_eq_zero.mp hz) wj (mem_of_getElem? hj)
        exact this hpj
    | succ i =>
      cases j with
      | zero =>
        exfalso
        simp only [List.getElem?_cons_zero, Option.some.injEq] at hj
        simp only [List.getElem?_cons_succ] at hi
        subst hj
        have hz : xs.countP p = 0 := by rw [if_pos hpj] at hle; omega
        have := (List.countP_eq_zero.mp hz) wi (mem_of_getElem? hi)
        exact this hpi
      | succ j =>
        simp only [List.getElem?_cons_succ] at hi hj
        have := ih i j wi wj (by omega) hi hj hpi hpj
        omega

theorem inCritical_locked {numRequests : Int} {srv : Server} {out : List LogLine}
    {s : State} (hI : Inv numRequests srv out s) {w : Worker} (hw : w ∈ s.workers)
    (hc : w.inCritical = true) : s.server.counter = true := by
  have hpos : 0 < s.workers.countP Worker.inCritical :=
    List.countP_pos_iff.mpr ⟨w, hw, hc⟩
  have hle := hI.csLe
  exact hI.csLocked (by omega)

/-! ## The claims -/

/-- C1, as the code has it: for every worker count `K ≥ 0` and every server with counter
value `v`, in every run of `start(K)` that has returned the counter is `v + K` reduced
into the range of `int`, under every schedule; it is exactly `v + K` whenever
`v + K` does not exceed the largest `int`; and when the mutex is free at entry,
`start(K)` does return: the sequential schedule is a complete run, no run is longer
than `9 * K + 2` steps, and a run that has not returned can always take a step. -/
theorem start_adds_worker_count (K v : Int) (m : Bool) (out : List LogLine)
    (hK0 : 0 ≤ K) (hK : isInt K) (hv : isInt v) :
    (∀ sched st, start K ⟨m, v⟩ out sched = some st → st.server.value = wrapInt (v + K)) ∧
    (v + K ≤ maxInt →
      ∀ sched st, start K ⟨m, v⟩ out sched = some st → st.server.value = v + K) ∧
    (m = false → ∃ st, start K ⟨m, v⟩ out (seqSchedule K.toNat) = some st) ∧
    (m = false → ∀ sched s, run K (startState ⟨m, v⟩ out) sched = some s →
      sched.length ≤ 9 * K.toNat + 2 ∧
      (s.pc ≠ .returned → ∃ t s', step K s t = some s')) := by
  have key : ∀ sched st, start K ⟨m, v⟩ out sched = some st →
      st.server.value = wrapInt (v + K) := by
    intro sched st h
    obtain ⟨hrun, hp⟩ := start_some_iff.mp h
    have hI := @reachable_inv K ⟨m, v⟩ out st hK hv ⟨sched, hrun⟩
    have hc := (returned_counts hI hp).1
    rw [hI.valInv, hc]
    congr 2
    simp only [Int.toNat_of_nonneg hK0]
  refine ⟨key, ?_, ?_, ?_⟩
  · intro hsum sched st h
    rw [key sched st h]
    apply wrapInt_of_isInt
    unfold isInt minInt maxInt at hv ⊢
    unfold maxInt at hsum
    norm_num at hv hsum ⊢
    omega
  · intro hm
    subst hm
    exact ⟨_, @start_seqSchedule K hK ⟨false, v⟩ hv rfl out⟩
  · intro hm sched s hrun
    have h0 := @inv_startState ⟨m, v⟩ K out hv
    have hI := run_inv hK sched h0 hrun
    have hmeas := measure_run hK sched h0 hrun
    have hinit : measure K (startState ⟨m, v⟩ out) = 9 * K.toNat + 2 := by
      simp [measure, startState, StartPc.remaining]
    refine ⟨by omega, fun hp => progress hI hm hp⟩

/-- Witness of C1: three workers on a server whose counter is 5. -/
theorem start_adds_worker_count_witness :
    (0 : Int) ≤ 3 ∧ isInt 3 ∧ isInt 5 ∧
    (∀ sched st, start 3 ⟨false, 5⟩ [] sched = some st → st.server.value = 5 + 3) ∧
    (∃ st, start 3 ⟨false, 5⟩ [] (seqSchedule (3 : Int).toNat) = some st) :=
  ⟨by decide, by decide, by decide,
   (start_adds_worker_count 3 5 false [] (by decide) (by decide) (by decide)).2.1
     (by decide),
   (start_adds_worker_count 3 5 false [] (by decide) (by decide) (by decide)).2.2.1 rfl⟩

/-- Counterexample to C1 as stated: one worker on a server whose counter is the largest
`int` leaves the smallest `int`, not `v + 1`. -/
theorem start_overflow_counterexample :
    (start 1 ⟨false, 9223372036854775807⟩ [] [.main, .main, .worker 0, .worker 0,
        .worker 0, .worker 0, .worker 0, .worker 0, .worker 0, .main, .main]).map
        (fun st => st.server.value) = some (-9223372036854775808) ∧
    (-9223372036854775808 : Int) ≠ 9223372036854775807 + 1 := by
  decide

/-- C2: for a fresh server and every worker count `K` (`K.toNat` is `K` for `K ≥ 0`),
in every run of `start(K)` that has returned the counter values logged by the
workers are, in the order of the log, exactly 1, 2, ..., K, whatever the schedule;
at every moment of a run the values logged so far are 1, 2, ..., n for some `n ≤ K`;
and `start(K)` does return. -/
theorem start_log_fresh (K : Int) (out : List LogLine) (hK : isInt K) :
    (∀ sched st, start K NewServer out sched = some st →
      st.out = out ++ (List.range K.toNat).map
        (fun (k : Nat) => LogLine.handled ((k : Int) + 1))) ∧
    (∀ s, Reachable K NewServer out s → ∃ n, n ≤ K.toNat ∧
      s.out = out ++ (List.range n).map (fun (k : Nat) => LogLine.handled ((k : Int) + 1))) ∧
    (∃ st, start K NewServer out (seqSchedule K.toNat) = some st) := by
  have hv : isInt NewServer.value := by decide
  refine ⟨?_, ?_, ?_⟩
  · intro sched st h
    obtain ⟨hrun, hp⟩ := start_some_iff.mp h
    have hI := reachable_inv hK hv ⟨sched, hrun⟩
    rw [fresh_out hK hI, (returned_counts hI hp).2.1]
  · intro s hs
    have hI := reachable_inv hK hv hs
    refine ⟨s.workers.countP Worker.hasPrinted, ?_, fresh_out hK hI⟩
    have hlen := inv_length_le hI
    have hc : s.workers.countP Worker.hasPrinted ≤ s.workers.length :=
    List.countP_le_length Worker.hasPrinted
    omega
  · exact ⟨_, start_seqSchedule hK hv rfl out⟩

/-- Witness of C2 at `K = 1`: exactly one line, reporting 1. -/
theorem start_log_fresh_witness :
    (∀ sched st, start 1 NewServer [] sched = some st → st.out = [LogLine.handled 1]) ∧
    (∃ st, start 1 NewServer [] (seqSchedule 1) = some st) :=
  ⟨fun sched st h => by
      simpa using (start_log_fresh 1 [] (by decide)).1 sched st h,
    (start_log_fresh 1 [] (by decide)).2.2⟩

/-- C3: `NewServer` has value 0, and in every state of `start` on a fresh server
the value is the number of workers that have written their increment and the log
holds one record per worker that has printed, carrying 1, 2, ...; the caller of
`start` never changes the value or the log, a worker changes the value only by its
write, which raises it by exactly 1, and appends to the log only by its print, which
emits one record carrying the value that worker wrote. -/
theorem counter_invariant (K : Int) (out : List LogLine) (hK : isInt K) :
    NewServer.value = 0 ∧
    ∀ s, Reachable K NewServer out s →
      s.server.value = (s.workers.countP Worker.hasStored : Nat) ∧
      s.out = out ++ (List.range (s.workers.countP Worker.hasPrinted)).map
        (fun (k : Nat) => LogLine.handled ((k : Int) + 1)) ∧
      (∀ s', step K s .main = some s' →
        s'.server.value = s.server.value ∧ s'.out = s.out) ∧
      (∀ i w s', s.workers[i]? = some w → step K s (.worker i) = some s' →
        s'.server.value = (if w.pc = .store then s.server.value + 1 else s.server.value) ∧
        s'.out = (if w.pc = .print then s.out ++ [LogLine.handled s.server.value]
          else s.out) ∧
        (w.pc = .print → s.server.value = wrapInt (w.tmp + 1))) := by
  have hv : isInt NewServer.value := by decide
  refine ⟨rfl, ?_⟩
  intro s hs
  have hI := reachable_inv hK hv hs
  refine ⟨fresh_value hK hI, fresh_out hK hI, ?_, ?_⟩
  · intro s' h
    have := stepMain_frame (step_main_eq h)
    exact ⟨by rw [this.1], this.2⟩
  · intro i w s' hw h
    have heff := stepWorker_effect hw (step_worker_eq h)
    have hmem := mem_of_getElem? hw
    refine ⟨?_, heff.2.1, fun hq => hI.printInv w hmem hq⟩
    rw [heff.1]
    by_cases hq : w.pc = .store
    · rw [if_pos hq, if_pos hq, hI.tmpInv w hmem hq]
      have hlt := countP_lt_length Worker.hasStored hmem (by simp [Worker.hasStored, hq])
      have hlen := inv_length_le hI
      rw [fresh_value hK hI]
      apply wrapInt_of_isInt
      unfold isInt minInt maxInt at hK ⊢
      norm_num at hK ⊢
      omega
    · rw [if_neg hq, if_neg hq]

/-- Witness of C3: two workers on a fresh server. -/
theorem counter_invariant_witness :
    NewServer.value = 0 ∧
    ∀ s, Reachable 2 NewServer [] s →
      s.server.value = (s.workers.countP Worker.hasStored : Nat) :=
  ⟨(counter_invariant 2 [] (by decide)).1,
   fun s hs => ((counter_invariant 2 [] (by decide)).2 s hs).1⟩

/-- C4: in every state of `start(K)` the WaitGroup counter is the number of started
workers that have not called `Done`, plus one while a `go` statement is pending, so it
is zero if and only if every started worker has finished and none is pending;
once all workers are spawned (at `wg.Wait()` and after) there are `K` of them and the
counter is zero if and only if every worker has finished; `wg.Wait()` lets `start`
proceed if and only if every worker has finished; and when `start` has returned,
all `K` workers have finished, each having incremented and logged. -/
theorem start_join (K v : Int) (m : Bool) (out : List LogLine) (hK : isInt K)
    (hv : isInt v) (s : State) (hs : Reachable K ⟨m, v⟩ out s) :
    s.wg = (s.workers.countP Worker.running : Nat) + pendingAdd s.pc ∧
    (s.wg = 0 ↔ (∀ w ∈ s.workers, w.pc = .exited) ∧ pendingAdd s.pc = 0) ∧
    (s.pc = .wait ∨ s.pc = .returned →
      s.workers.length = K.toNat ∧ (s.wg = 0 ↔ ∀ w ∈ s.workers, w.pc = .exited)) ∧
    (s.pc = .wait →
      ((∃ s', step K s .main = some s') ↔ ∀ w ∈ s.workers, w.pc = .exited)) ∧
    (s.pc = .returned →
      s.workers.length = K.toNat ∧
      ∀ w ∈ s.workers, w.pc = .exited ∧ w.hasStored = true ∧ w.hasPrinted = true) := by
  have hI := @reachable_inv K ⟨m, v⟩ out s hK hv hs
  have hwait : s.pc = .wait ∨ s.pc = .returned →
      s.workers.length = K.toNat ∧ (s.wg = 0 ↔ ∀ w ∈ s.workers, w.pc = .exited) := by
    intro hp
    have hpc := hI.pcInv
    have hwg := hI.wgInv
    have hiff := countP_running_zero_iff s.workers
    rcases hp with hp | hp <;> rw [hp] at hpc hwg <;>
      simp only [pcOk, pendingAdd, add_zero] at hpc hwg
    · refine ⟨by omega, ?_⟩
      rw [← hiff]
      omega
    · refine ⟨by omega, ?_⟩
      rw [← hiff]
      omega
  refine ⟨hI.wgInv, ?_, hwait, ?_, ?_⟩
  · have hwg := hI.wgInv
    have hiff := countP_running_zero_iff s.workers
    have hpa : 0 ≤ pendingAdd s.pc := by cases s.pc <;> simp [pendingAdd]
    rw [← hiff]
    omega
  · intro hp
    rw [← (hwait (Or.inl hp)).2]
    constructor
    · rintro ⟨s', h⟩
      have h' := step_main_eq h
      unfold stepMain at h'
      rw [hp] at h'
      dsimp only at h'
      by_cases hz : s.wg = 0
      · exact hz
      · simp [hz] at h'
    · intro hz
      refine ⟨{ s with pc := .returned }, ?_⟩
      simp [step, hI.noFault, stepMain, hp, hz]
  · intro hp
    refine ⟨(hwait (Or.inr hp)).1, ?_⟩
    intro w hw
    have hx := returned_all_exited hI hp w hw
    simp [Worker.hasStored, Worker.hasPrinted, hx]

/-- Witness of C4: one worker that has slept but not yet incremented; `start` is at
`wg.Wait()` with counter 1 and cannot proceed. -/
theorem start_join_witness :
    Reachable 1 ⟨false, 0⟩ [] ⟨⟨false, 0⟩, 1, [], [⟨.lock, 0⟩], .wait, false⟩ ∧
    ((∃ s', step 1 ⟨⟨false, 0⟩, 1, [], [⟨.lock, 0⟩], .wait, false⟩ .main = some s') ↔
      ∀ w ∈ [(⟨.lock, 0⟩ : Worker)], w.pc = .exited) :=
  have hr : Reachable 1 ⟨false, 0⟩ [] ⟨⟨false, 0⟩, 1, [], [⟨.lock, 0⟩], .wait, false⟩ :=
    ⟨[.main, .main, .worker 0, .main], by decide⟩
  ⟨hr, (start_join 1 0 false [] (by decide) (by decide) _ hr).2.2.2.1 rfl⟩

/-- C5: for every server state, `start(0)` spawns no worker, leaves the server (value
and mutex) and the log unchanged in every state it passes through, finds the
WaitGroup at zero so that `wg.Wait()` does not block, and returns after the loop
test and the `Wait`; there is no other run of it. -/
theorem start_zero (srv : Server) (out : List LogLine) :
    (∀ s, Reachable 0 srv out s →
      s.workers = [] ∧ s.server = srv ∧ s.out = out ∧ s.wg = 0 ∧ s.fault = false) ∧
    start 0 srv out [.main, .main]
      = some { server := srv, wg := 0, out := out, workers := [], pc := .returned,
               fault := false } ∧
    (∀ sched st, start 0 srv out sched = some st → sched = [.main, .main]) := by
  have h0 : (startState srv out).server = srv ∧ (startState srv out).wg = 0 ∧
      (startState srv out).out = out ∧ (startState srv out).workers = [] ∧
      (startState srv out).fault = false ∧
      ((startState srv out).pc = .loop 0 ∨ (startState srv out).pc = .wait ∨
        (startState srv out).pc = .returned) :=
    ⟨rfl, rfl, rfl, rfl, rfl, Or.inl rfl⟩
  refine ⟨?_, ?_, ?_⟩
  · rintro s ⟨sched, hr⟩
    obtain ⟨⟨h1, h2, h3, h4, h5, _⟩, _⟩ := run_zero_cases sched h0 hr
    exact ⟨h4, h1, h3, h2, h5⟩
  · simp [start, run, step, stepMain, startState]
  · intro sched st h
    obtain ⟨hrun, hp⟩ := start_some_iff.mp h
    exact (run_zero_cases sched h0 hrun).2.1 rfl hp

/-- C6: `makeRequest` returns a non-nil error exactly when the GET fails at the
transport level, and then it is that same error, returned after the error line is
logged; for every response received it returns nil, whatever the status code, having
logged the "completed with status" line when the status is 200 and the "failed with
status" line otherwise, each carrying the status code. -/
theorem makeRequest_error (s : Server) (out : List LogLine) (url : String)
    (r : GetResult) :
    ((makeRequest s out url r).2.2 ≠ none ↔ ∃ err, r = .failure err) ∧
    (∀ err, r = .failure err →
      makeRequest s out url r = (s, out ++ [.requestError url err], some err)) ∧
    (∀ code, r = .response code →
      makeRequest s out url r
        = (s, out ++ [if code = 200 then .requestCompleted url code
                      else .requestFailed url code], none)) ∧
    (∀ code, (LogLine.requestFailed url code).message
        = "Request to " ++ url ++ " failed with status: " ++ toString code) ∧
    (∀ code, (LogLine.requestCompleted url code).message
        = "Request to " ++ url ++ " completed with status: " ++ toString code) := by
  refine ⟨?_, ?_, ?_, fun _ => rfl, fun _ => rfl⟩
  · cases r with
    | failure err => simp [makeRequest]
    | response code =>
      by_cases hc : code = 200 <;> simp [makeRequest, hc]
  · intro err hr
    subst hr
    rfl
  · intro code hr
    subst hr
    by_cases hc : code = 200 <;> simp [makeRequest, hc]

/-- C7: `makeRequest` leaves the server as it found it, value and mutex alike, for
every server state, URL and outcome of the GET; what it logs and returns does not
depend on the server state (it neither reads the value nor waits for the mutex), and
it adds exactly one line to the log, which is not an increment line. -/
theorem makeRequest_frame (s : Server) (out : List LogLine) (url : String)
    (r : GetResult) :
    (makeRequest s out url r).1 = s ∧
    (makeRequest s out url r).1.value = s.value ∧
    (makeRequest s out url r).1.counter = s.counter ∧
    (∀ s2 : Server, (makeRequest s2 out url r).2 = (makeRequest s out url r).2) ∧
    (∃ l, (makeRequest s out url r).2.1 = out ++ [l] ∧ ∀ c, l ≠ .handled c) := by
  cases r with
  | failure err =>
    refine ⟨rfl, rfl, rfl, fun _ => rfl, ⟨_, rfl, ?_⟩⟩
    intro c hc
    cases hc
  | response code =>
    by_cases hc : code = 200
    · simp [makeRequest, hc]
    · simp [makeRequest, hc]

/-- C8: when `start(500)` on the fresh server has returned (the counter is then 500),
`main` ends normally with "Program finished." as the last log line if `makeRequest`
returns nil, whatever the HTTP status; if `makeRequest` returns a transport error,
`main` ends with the fatal exit status 1 right after logging the error, and
"Program finished." is not in the log. -/
theorem main_exit (sched : List Tid) (r : GetResult) (st : State)
    (h : start 500 NewServer [.programStarted, .serverInitialized] sched = some st) :
    st.server.value = 500 ∧
    ((makeRequest st.server st.out "https://www.rust-lang.org" r).2.2 = none →
      main sched r = some (st.server,
        (makeRequest st.server st.out "https://www.rust-lang.org" r).2.1
          ++ [.programFinished], .normal)) ∧
    (∀ err, (makeRequest st.server st.out "https://www.rust-lang.org" r).2.2 = some err →
      r = .failure err ∧
      main sched r = some (st.server,
        st.out ++ [.requestError "https://www.rust-lang.org" err, .fatalRequestFailed err],
        .fatal 1) ∧
      LogLine.programFinished ∉
        st.out ++ [.requestError "https://www.rust-lang.org" err, .fatalRequestFailed err]) := by
  have hK : isInt 500 := by decide
  have hv : isInt NewServer.value := by decide
  obtain ⟨hrun, hp⟩ := start_some_iff.mp h
  have hI := reachable_inv hK hv ⟨sched, hrun⟩
  have hout := fresh_out hK hI
  refine ⟨?_, ?_, ?_⟩
  · rw [fresh_value hK hI, (returned_counts hI hp).1]
    rfl
  · intro hn
    cases r with
    | failure err => simp [makeRequest] at hn
    | response code =>
      by_cases hc : code = 200 <;> simp [main, h, makeRequest, hc]
  · intro err he
    cases r with
    | failure e =>
      simp only [makeRequest, Option.some.injEq] at he
      subst he
      refine ⟨rfl, by simp [main, h, makeRequest], ?_⟩
      rw [hout]
      simp
    | response code =>
      by_cases hc : code = 200 <;> simp [makeRequest, hc] at he

/-- Witness of C8: the sequential schedule of 500 workers, and a GET that fails. -/
theorem main_exit_witness :
    start 500 NewServer [.programStarted, .serverInitialized] (seqSchedule 500)
      = some (seqState NewServer [.programStarted, .serverInitialized] 500 .returned) ∧
    main (seqSchedule 500) (.failure "no such host")
      = some ((seqState NewServer [.programStarted, .serverInitialized] 500 .returned).server,
          (seqState NewServer [.programStarted, .serverInitialized] 500 .returned).out
            ++ [.requestError "https://www.rust-lang.org" "no such host",
                .fatalRequestFailed "no such host"],
          .fatal 1) :=
  have h500 : start 500 NewServer [.programStarted, .serverInitialized] (seqSchedule 500)
      = some (seqState NewServer [.programStarted, .serverInitialized] 500 .returned) :=
    @start_seqSchedule 500 (by decide) NewServer (by decide) rfl _
  ⟨h500, ((main_exit (seqSchedule 500) (.failure "no such host") _ h500).2.2
    "no such host" rfl).2.1⟩

/-- C9: in every state of any number of concurrently running `handleRequest` calls
on one server, at most one call is between its `Lock` and its `Unlock`; a call whose
next action reads or writes `value` is that call, and the mutex is locked; and a step
that changes `value` is the write of a worker inside the critical section. -/
theorem mutual_exclusion (K v : Int) (m : Bool) (out : List LogLine) (hK : isInt K)
    (hv : isInt v) (s : State) (hs : Reachable K ⟨m, v⟩ out s) :
    s.workers.countP Worker.inCritical ≤ 1 ∧
    (∀ (i j : Nat) (wi wj : Worker), s.workers[i]? = some wi → s.workers[j]? = some wj →
      wi.inCritical = true → wj.inCritical = true → i = j) ∧
    (∀ (i : Nat) (w : Worker), s.workers[i]? = some w → w.touchesValue = true →
      w.inCritical = true ∧ s.server.counter = true) ∧
    (∀ t s', step K s t = some s' → s'.server.value ≠ s.server.value →
      ∃ i w, t = .worker i ∧ s.workers[i]? = some w ∧ w.pc = .store ∧
        w.inCritical = true ∧ s.server.counter = true) := by
  have hI := @reachable_inv K ⟨m, v⟩ out s hK hv hs
  refine ⟨hI.csLe, ?_, ?_, ?_⟩
  · intro i j wi wj hi hj hci hcj
    exact countP_le_one_unique Worker.inCritical s.workers i j wi wj hI.csLe hi hj hci hcj
  · intro i w hw ht
    have hc : w.inCritical = true := by
      cases hq : w.pc <;> simp [Worker.touchesValue, Worker.inCritical, hq] at ht ⊢
    exact ⟨hc, inCritical_locked hI (mem_of_getElem? hw) hc⟩
  · intro t s' h hne
    cases t with
    | main =>
      exfalso
      have := stepMain_frame (step_main_eq h)
      exact hne (by rw [this.1])
    | worker i =>
      have h' := step_worker_eq h
      cases hw : s.workers[i]? with
      | none => simp [stepWorker, hw] at h'
      | some w =>
        have heff := stepWorker_effect hw h'
        by_cases hq : w.pc = .store
        · have hc : w.inCritical = true := by simp [Worker.inCritical, hq]
          exact ⟨i, w, rfl, hw, hq, hc, inCritical_locked hI (mem_of_getElem? hw) hc⟩
        · exfalso
          rw [heff.1, if_neg hq] at hne
          exact hne rfl

/-- Witness of C9: two workers, one inside the critical section, one waiting to lock. -/
theorem mutual_exclusion_witness :
    Reachable 2 ⟨false, 0⟩ [] ⟨⟨true, 0⟩, 2, [], [⟨.load, 0⟩, ⟨.lock, 0⟩], .loop 2, false⟩ ∧
    [(⟨.load, 0⟩ : Worker), ⟨.lock, 0⟩].countP Worker.inCritical ≤ 1 :=
  have hr : Reachable 2 ⟨false, 0⟩ []
      ⟨⟨true, 0⟩, 2, [], [⟨.load, 0⟩, ⟨.lock, 0⟩], .loop 2, false⟩ :=
    ⟨[.main, .main, .main, .main, .worker 0, .worker 0, .worker 1], by decide⟩
  ⟨hr, (mutual_exclusion 2 0 false [] (by decide) (by decide) _ hr).1⟩

/-- C10: in every state of `start` entered with the mutex free, the mutex is locked
exactly when some worker is between its `Lock` and its `Unlock`, so a worker in its
sleep never holds it; the sleep step needs no mutex and only moves the worker on to
its `Lock`; the step by which a `handleRequest` call returns is the `Unlock`, it
never fails and leaves the mutex unlocked; hence the mutex is unlocked whenever no
call is inside the critical section, in particular when `start` has returned. -/
theorem lock_discipline (K v : Int) (out : List LogLine) (hK : isInt K) (hv : isInt v)
    (s : State) (hs : Reachable K ⟨false, v⟩ out s) :
    (s.server.counter = true ↔
      ∃ (i : Nat) (w : Worker), s.workers[i]? = some w ∧ w.inCritical = true) ∧
    (∀ (i : Nat) (w : Worker), s.workers[i]? = some w → w.pc = .sleep →
      w.inCritical = false ∧
      step K s (.worker i)
        = some { s with workers := s.workers.set i { w with pc := .lock } }) ∧
    (∀ (i : Nat) (w : Worker), s.workers[i]? = some w → w.pc = .unlock →
      step K s (.worker i)
        = some { s with server := { s.server with counter := false },
                        workers := s.workers.set i { w with pc := .done } }) ∧
    ((∀ w ∈ s.workers, w.inCritical = false) → s.server.counter = false) ∧
    (s.pc = .returned → s.server.counter = false) := by
  have hI := @reachable_inv K ⟨false, v⟩ out s hK hv hs
  have hfree : (∀ w ∈ s.workers, w.inCritical = false) → s.server.counter = false := by
    intro hall
    by_contra hc
    have hc' : s.server.counter = true := by simpa using hc
    have hone := hI.lockedCs rfl hc'
    have hz : s.workers.countP Worker.inCritical = 0 := by
      rw [List.countP_eq_zero]
      intro w hw
      simp [hall w hw]
    omega
  refine ⟨?_, ?_, ?_, hfree, ?_⟩
  · constructor
    · intro hc
      have hone := hI.lockedCs rfl hc
      have hpos : 0 < s.workers.countP Worker.inCritical := by omega
      obtain ⟨w, hwm, hwc⟩ := List.countP_pos_iff.mp hpos
      obtain ⟨i, hi⟩ := List.getElem?_of_mem hwm
      exact ⟨i, w, hi, hwc⟩
    · rintro ⟨i, w, hi, hwc⟩
      exact inCritical_locked hI (mem_of_getElem? hi) hwc
  · intro i w hw hq
    refine ⟨by simp [Worker.inCritical, hq], ?_⟩
    simp [step, hI.noFault, stepWorker, handleRequest, hw, hq]
  · intro i w hw hq
    have hc : s.server.counter = true :=
      inCritical_locked hI (mem_of_getElem? hw) (by simp [Worker.inCritical, hq])
    simp [step, hI.noFault, stepWorker, handleRequest, hw, hq, hc]
  · intro hp
    apply hfree
    intro w hw
    simp [Worker.inCritical, returned_all_exited hI hp w hw]

/-- Witness of C10: worker 0 is about to unlock while worker 1 sleeps. -/
theorem lock_discipline_witness :
    Reachable 2 ⟨false, 0⟩ []
      ⟨⟨true, 1⟩, 2, [.handled 1], [⟨.unlock, 0⟩, ⟨.sleep, 0⟩], .loop 2, false⟩ ∧
    step 2 ⟨⟨true, 1⟩, 2, [.handled 1], [⟨.unlock, 0⟩, ⟨.sleep, 0⟩], .loop 2, false⟩
        (.worker 0)
      = some ⟨⟨false, 1⟩, 2, [.handled 1], [⟨.done, 0⟩, ⟨.sleep, 0⟩], .loop 2, false⟩ :=
  have hr : Reachable 2 ⟨false, 0⟩ []
      ⟨⟨true, 1⟩, 2, [.handled 1], [⟨.unlock, 0⟩, ⟨.sleep, 0⟩], .loop 2, false⟩ :=
    ⟨[.main, .main, .main, .main, .worker 0, .worker 0, .worker 0, .worker 0, .worker 0],
      by decide⟩
  ⟨hr, (lock_discipline 2 0 [] (by decide) (by decide) _ hr).2.2.1 0 ⟨.unlock, 0⟩ rfl rfl⟩

end RustFinal
